import Mathlib

/-!
Verification of the Stratvithor report-orchestrator core against its
natural-language specification.  The Python sources under
`Backend/Report_Compose` and `Backend/Web_Search` are shallowly embedded as
executable Lean definitions; external collaborators (the LLM endpoint, the
scraper, the summarization model, the JSON parser, the clock) are passed in
as function parameters.  Machine-level details (asyncio scheduling,
multiprocessing queues) are modelled as explicit step relations or explicit
queue lists.
-/

namespace Stratvithor

/-! ## Association-list map, modelling a Python `dict` keyed by `int`.
Assignment to an existing key overwrites its first binding in place; a new
key is appended, matching Python's insertion-order semantics. -/

def setKey {β : Type} : List (Nat × β) → Nat → β → List (Nat × β)
  | [], k, v => [(k, v)]
  | p :: ps, k, v => if p.1 = k then (k, v) :: ps else p :: setKey ps k v

def getKey {β : Type} : List (Nat × β) → Nat → Option β
  | [], _ => none
  | p :: ps, k => if p.1 = k then some p.2 else getKey ps k

theorem getKey_setKey_self {β : Type} (m : List (Nat × β)) (k : Nat) (v : β) :
    getKey (setKey m k v) k = some v := by
  induction m with
  | nil => simp [setKey, getKey]
  | cons p ps ih =>
    by_cases h : p.1 = k
    · simp [setKey, getKey, h]
    · simp [setKey, getKey, h, ih]

theorem getKey_setKey_ne {β : Type} (m : List (Nat × β)) (k k' : Nat) (v : β)
    (hne : k' ≠ k) : getKey (setKey m k v) k' = getKey m k' := by
  have hkk : ¬ k = k' := fun hh => hne hh.symm
  induction m with
  | nil => simp [setKey, getKey, hkk]
  | cons p ps ih =>
    by_cases h : p.1 = k
    · simp [setKey, getKey, h, hkk]
    · simp [setKey, getKey, h, ih]

/-! ## ResultsDAG (src/Backend/Report_Compose/src/ResultsDAG.py)

`results` maps a node id to a dict with a `status` field and a `result`
payload; `_updates_queue` is the single shared `asyncio.Queue` of
`(node_id, node_data)` update events.  `store_result` payloads are arbitrary
(`Any` in Python), while `mark_processing` / `mark_failed` store strings, so
the payload is a sum `ResVal α`. -/

inductive Status : Type
  | pending
  | processing
  | complete
  | failed
deriving DecidableEq

inductive ResVal (α : Type) : Type
  | str (s : String)
  | val (a : α)
deriving DecidableEq

structure NodeData (α : Type) : Type where
  status : Status
  result : Option (ResVal α)
deriving DecidableEq

structure ResultsDAG (α : Type) : Type where
  results : List (Nat × NodeData α)
  updatesQueue : List (Nat × NodeData α)
deriving DecidableEq

def ResultsDAG.empty {α : Type} : ResultsDAG α := ⟨[], []⟩

def initNode {α : Type} (s : ResultsDAG α) (nodeId : Nat) : ResultsDAG α :=
  { s with results := setKey s.results nodeId ⟨Status.pending, none⟩ }

def storeResult {α : Type} (s : ResultsDAG α) (nodeId : Nat) (result : α) : ResultsDAG α :=
  let nd : NodeData α := ⟨Status.complete, some (ResVal.val result)⟩
  { results := setKey s.results nodeId nd
    updatesQueue := s.updatesQueue ++ [(nodeId, nd)] }

def markFailed {α : Type} (s : ResultsDAG α) (nodeId : Nat) (errorMsg : String) : ResultsDAG α :=
  let nd : NodeData α := ⟨Status.failed, some (ResVal.str errorMsg)⟩
  { results := setKey s.results nodeId nd
    updatesQueue := s.updatesQueue ++ [(nodeId, nd)] }

def markProcessing {α : Type} (s : ResultsDAG α) (nodeId : Nat) (msg : String) : ResultsDAG α :=
  let nd : NodeData α := ⟨Status.processing, some (ResVal.str msg)⟩
  { results := setKey s.results nodeId nd
    updatesQueue := s.updatesQueue ++ [(nodeId, nd)] }

def getResult {α : Type} (s : ResultsDAG α) (nodeId : Nat) : Option (NodeData α) :=
  getKey s.results nodeId

def getStatus {α : Type} (s : ResultsDAG α) (nodeId : Nat) : Option Status :=
  (getResult s nodeId).map NodeData.status

/-- One pull by one subscriber of `watch_updates`: the head of the shared
updates queue is removed and handed to that subscriber alone. -/
def watchNext {α : Type} (s : ResultsDAG α) : Option ((Nat × NodeData α) × ResultsDAG α) :=
  match s.updatesQueue with
  | [] => none
  | e :: rest => some (e, { s with updatesQueue := rest })

/-! ### Operation traces over a ResultsDAG (for the publication claims) -/

inductive StoreOp (α : Type) : Type
  | init (n : Nat)
  | proc (n : Nat) (msg : String)
  | store (n : Nat) (r : α)
  | fail (n : Nat) (e : String)

def applyOp {α : Type} (s : ResultsDAG α) : StoreOp α → ResultsDAG α
  | StoreOp.init n => initNode s n
  | StoreOp.proc n msg => markProcessing s n msg
  | StoreOp.store n r => storeResult s n r
  | StoreOp.fail n e => markFailed s n e

def applyOps {α : Type} (s : ResultsDAG α) : List (StoreOp α) → ResultsDAG α
  | [] => s
  | op :: ops => applyOps (applyOp s op) ops

def notPendingB : Status → Bool
  | Status.pending => false
  | _ => true

theorem applyOps_queue_notPending {α : Type} (ops : List (StoreOp α)) (s : ResultsDAG α)
    (h : s.updatesQueue.all (fun ev => notPendingB ev.2.status) = true) :
    ((applyOps s ops).updatesQueue.all (fun ev => notPendingB ev.2.status)) = true := by
  induction ops generalizing s with
  | nil => exact h
  | cons op ops ih =>
    refine ih _ ?_
    cases op with
    | init n => exact h
    | proc n msg => simpa [markProcessing, applyOp, notPendingB] using h
    | store n r => simpa [storeResult, applyOp, notPendingB] using h
    | fail n e => simpa [markFailed, applyOp, notPendingB] using h

/-- **C10.** Initializing a node to pending publishes no event on the update
stream; each of `mark_processing`, `store_result`, `mark_failed` enqueues
exactly one event (carrying the written node data); consequently every event
in the queue produced by any operation sequence from a fresh store has a
non-`pending` status, so a subscriber never receives a `pending` update. -/
theorem c10_pending_never_published :
    (∀ (α : Type) (s : ResultsDAG α) (n : Nat),
        (initNode s n).updatesQueue = s.updatesQueue) ∧
    (∀ (α : Type) (s : ResultsDAG α) (n : Nat) (msg : String),
        (markProcessing s n msg).updatesQueue
          = s.updatesQueue ++ [(n, ⟨Status.processing, some (ResVal.str msg)⟩)]) ∧
    (∀ (α : Type) (s : ResultsDAG α) (n : Nat) (r : α),
        (storeResult s n r).updatesQueue
          = s.updatesQueue ++ [(n, ⟨Status.complete, some (ResVal.val r)⟩)]) ∧
    (∀ (α : Type) (s : ResultsDAG α) (n : Nat) (e : String),
        (markFailed s n e).updatesQueue
          = s.updatesQueue ++ [(n, ⟨Status.failed, some (ResVal.str e)⟩)]) ∧
    (∀ (α : Type) (ops : List (StoreOp α)),
        ((applyOps ResultsDAG.empty ops).updatesQueue.all
          (fun ev => notPendingB ev.2.status)) = true) := by
  refine ⟨fun α s n => rfl, fun α s n msg => rfl, fun α s n r => rfl, fun α s n e => rfl, ?_⟩
  intro α ops
  exact applyOps_queue_notPending ops ResultsDAG.empty (by simp [ResultsDAG.empty])

/-! ### C3: writes after a terminal state -/

/-- **C3 counterexample.**  The claim says a write after a terminal state is
rejected and leaves the stored state unchanged.  In the code no write is ever
rejected: after `store_result 1` (terminal `complete`), `mark_processing 1`
overwrites the node back to `processing`, and a second terminal write
`mark_failed 1` overwrites it to `failed` with no `AlreadyTerminal` error. -/
theorem c3_counterexample_terminal_overwritten :
    (getStatus (markProcessing
        (storeResult (initNode (ResultsDAG.empty (α := String)) 1) 1 ("r")) 1 ("m")) 1
      = some Status.processing) ∧
    (getStatus (markFailed
        (storeResult (initNode (ResultsDAG.empty (α := String)) 1) 1 ("r")) 1 ("boom")) 1
      = some Status.failed) ∧
    some Status.processing ≠ some Status.complete := by
  refine ⟨by decide, by decide, by decide⟩

/-- **C3 (amended).**  `ResultsDAG` performs no terminal-state check: every
call to `mark_processing`, `store_result` or `mark_failed` unconditionally
overwrites the node's stored state with the newly written one (and enqueues
an update), regardless of any previously stored terminal state; there is no
`AlreadyTerminal` rejection. -/
theorem c3_amended_writes_unconditional :
    ∀ (α : Type) (s : ResultsDAG α) (n : Nat) (msg e : String) (r : α),
      getStatus (markProcessing s n msg) n = some Status.processing ∧
      getStatus (storeResult s n r) n = some Status.complete ∧
      getStatus (markFailed s n e) n = some Status.failed := by
  intro α s n msg e r
  refine ⟨?_, ?_, ?_⟩ <;>
    simp [getStatus, getResult, markProcessing, storeResult, markFailed, getKey_setKey_self]

/-! ### C8: multi-subscriber delivery -/

/-- Two subscribers pulling from the same store; `picks` says which
subscriber performs each successive pull (`true` = subscriber A). Returns
the events received by A and by B. -/
def consumeTwo {α : Type} : List Bool → ResultsDAG α →
    (List (Nat × NodeData α) × List (Nat × NodeData α))
  | [], _ => ([], [])
  | pick :: ps, s =>
    match watchNext s with
    | none => ([], [])
    | some (e, s') =>
      let rest := consumeTwo ps s'
      if pick then (e :: rest.1, rest.2) else (rest.1, e :: rest.2)

/-- **C8 counterexample.**  With one emitted update and two subscribers, the
first subscriber to pull receives the event and the other subscriber can
never receive it: the second pull finds the shared queue empty.  This
refutes "each of them receives each subsequent update". -/
theorem c8_counterexample_single_delivery :
    consumeTwo [true, false]
        (storeResult (initNode (ResultsDAG.empty (α := String)) 1) 1 ("r"))
      = ([(1, ⟨Status.complete, some (ResVal.val ("r"))⟩)], []) := by
  decide

/-- **C8 (amended).**  `watch_updates` generators all consume destructively
from the single shared `_updates_queue`, so each emitted transition is
delivered to exactly one subscriber: for any interleaving of pulls by two
subscribers, the two received event lists together form (as a multiset) the
consumed prefix of the queue — events are split between subscribers, never
duplicated to both. -/
theorem c8_amended_events_partitioned :
    ∀ (α : Type) (picks : List Bool) (s : ResultsDAG α),
      ((consumeTwo picks s).1 ++ (consumeTwo picks s).2).Perm
        (s.updatesQueue.take (min picks.length s.updatesQueue.length)) := by
  intro α picks
  induction picks with
  | nil => intro s; simp [consumeTwo]
  | cons pick ps ih =>
    intro s
    cases hq : s.updatesQueue with
    | nil => simp [consumeTwo, watchNext, hq]
    | cons e rest =>
      have hih := ih { s with updatesQueue := rest }
      simp only [consumeTwo, watchNext, hq]
      by_cases hp : pick
      · simpa [hp, Nat.succ_min_succ] using hih.cons e
      · simp only [hp, if_neg, Bool.not_eq_true]
        have h1 : ((consumeTwo ps { s with updatesQueue := rest }).1 ++
            e :: (consumeTwo ps { s with updatesQueue := rest }).2).Perm
            (e :: ((consumeTwo ps { s with updatesQueue := rest }).1 ++
              (consumeTwo ps { s with updatesQueue := rest }).2)) :=
          List.perm_middle
        simpa [Nat.succ_min_succ] using h1.trans (hih.cons e)

/-! ## Orchestrator scheduling model (Integrator.queue_node / generate_report)

`generate_report` initializes every node to `pending`, then spawns one
asyncio task per node (no task body runs before the spawning loop finishes,
since the loop does not await).  Each `queue_node` task first awaits
`asyncio.gather` over its parents' tasks, then calls `mark_processing`,
runs the node work, and finally (inside try/except) writes exactly one
terminal state: `store_result` on success or `mark_failed` on exception.

We model a task's control point `pc`: `0` = suspended on the parent gather,
`1` = resumed (its `mark_processing` has executed) and working, `2` = the
coroutine has returned.  `gather` resumes a task only once every parent task
has returned — that is the asyncio primitive's contract. -/

def upd (f : Nat → Nat) (k v : Nat) : Nat → Nat :=
  fun x => if x = k then v else f x

structure SchedState (α : Type) : Type where
  pc : Nat → Nat
  dag : ResultsDAG α

def initAll (α : Type) (nodes : List Nat) : ResultsDAG α :=
  nodes.foldl initNode ResultsDAG.empty

def initSched (α : Type) (nodes : List Nat) : SchedState α :=
  ⟨fun _ => 0, initAll α nodes⟩

inductive Step {α : Type} (edges : List (Nat × Nat)) : SchedState α → SchedState α → Prop
  | resume (s : SchedState α) (n : Nat)
      (h0 : s.pc n = 0) (hpar : ∀ p, (p, n) ∈ edges → s.pc p = 2) :
      Step edges s ⟨upd s.pc n 1, markProcessing s.dag n ("Node is currently being explored")⟩
  | finishOk (s : SchedState α) (n : Nat) (r : α) (h1 : s.pc n = 1) :
      Step edges s ⟨upd s.pc n 2, storeResult s.dag n r⟩
  | finishFail (s : SchedState α) (n : Nat) (e : String) (h1 : s.pc n = 1) :
      Step edges s ⟨upd s.pc n 2, markFailed s.dag n e⟩

def Reachable {α : Type} (edges : List (Nat × Nat)) (nodes : List Nat)
    (s : SchedState α) : Prop :=
  Relation.ReflTransGen (Step edges) (initSched α nodes) s

def TerminalSt (st : Status) : Prop :=
  st = Status.complete ∨ st = Status.failed

/-- Queue well-ordering: any `processing` event for a child is preceded in
the queue by a terminal event for each of its parents. -/
def ParentBeforeChild {α : Type} (edges : List (Nat × Nat))
    (q : List (Nat × NodeData α)) : Prop :=
  ∀ p c, (p, c) ∈ edges →
    ∀ q1 (nd : NodeData α) q2, q = q1 ++ (c, nd) :: q2 → nd.status = Status.processing →
      ∃ nd', (p, nd') ∈ q1 ∧ TerminalSt nd'.status

def SchedInv {α : Type} (edges : List (Nat × Nat)) (s : SchedState α) : Prop :=
  (∀ n, s.pc n = 2 → ∃ st, getStatus s.dag n = some st ∧ TerminalSt st) ∧
  (∀ n st, getStatus s.dag n = some st → TerminalSt st →
      ∃ nd, (n, nd) ∈ s.dag.updatesQueue ∧ nd.status = st) ∧
  ParentBeforeChild edges s.dag.updatesQueue

theorem getStatus_markProcessing {α : Type} (s : ResultsDAG α) (n m : Nat) (msg : String) :
    getStatus (markProcessing s n msg) m
      = if m = n then some Status.processing else getStatus s m := by
  by_cases h : m = n
  · subst h; simp [getStatus, getResult, markProcessing, getKey_setKey_self]
  · simp [getStatus, getResult, markProcessing, getKey_setKey_ne _ _ _ _ h, h]

theorem getStatus_storeResult {α : Type} (s : ResultsDAG α) (n m : Nat) (r : α) :
    getStatus (storeResult s n r) m
      = if m = n then some Status.complete else getStatus s m := by
  by_cases h : m = n
  · subst h; simp [getStatus, getResult, storeResult, getKey_setKey_self]
  · simp [getStatus, getResult, storeResult, getKey_setKey_ne _ _ _ _ h, h]

theorem getStatus_markFailed {α : Type} (s : ResultsDAG α) (n m : Nat) (e : String) :
    getStatus (markFailed s n e) m
      = if m = n then some Status.failed else getStatus s m := by
  by_cases h : m = n
  · subst h; simp [getStatus, getResult, markFailed, getKey_setKey_self]
  · simp [getStatus, getResult, markFailed, getKey_setKey_ne _ _ _ _ h, h]

theorem append_singleton_eq {β : Type} (q q1 q2 : List β) (x y : β)
    (h : q ++ [x] = q1 ++ y :: q2) :
    (q = q1 ∧ x = y ∧ q2 = []) ∨ ∃ q2', q2 = q2' ++ [x] ∧ q = q1 ++ y :: q2' := by
  induction q1 generalizing q with
  | nil =>
    cases q with
    | nil =>
      simp only [List.nil_append] at h
      obtain ⟨h1, h2⟩ := List.cons.inj h
      exact Or.inl ⟨rfl, h1, h2.symm⟩
    | cons a as =>
      simp only [List.cons_append, List.nil_append] at h
      obtain ⟨h1, h2⟩ := List.cons.inj h
      subst h1
      exact Or.inr ⟨as, h2.symm, rfl⟩
  | cons b bs ih =>
    cases q with
    | nil =>
      exfalso
      have hlen := congrArg List.length h
      simp [List.length_append] at hlen
    | cons a as =>
      simp only [List.cons_append] at h
      obtain ⟨h1, h2⟩ := List.cons.inj h
      subst h1
      rcases ih as h2 with ⟨rfl, rfl, rfl⟩ | ⟨q2', rfl, rfl⟩
      · exact Or.inl ⟨rfl, rfl, rfl⟩
      · exact Or.inr ⟨q2', rfl, rfl⟩

theorem parentBeforeChild_append {α : Type} (edges : List (Nat × Nat))
    (q : List (Nat × NodeData α)) (m : Nat) (nd0 : NodeData α)
    (hq : ParentBeforeChild edges q)
    (hnew : nd0.status = Status.processing →
      ∀ p, (p, m) ∈ edges → ∃ nd', (p, nd') ∈ q ∧ TerminalSt nd'.status) :
    ParentBeforeChild edges (q ++ [(m, nd0)]) := by
  intro p c hpc q1 nd q2 hdec hproc
  rcases append_singleton_eq q q1 q2 _ _ hdec with ⟨rfl, hx, rfl⟩ | ⟨q2', rfl, rfl⟩
  · obtain ⟨h1, h2⟩ := Prod.mk.inj hx
    subst h1
    subst h2
    exact hnew hproc p hpc
  · exact hq p c hpc q1 nd q2' rfl hproc

theorem initAll_status_pending {α : Type} (nodes : List Nat) (n : Nat) :
    getStatus (initAll α nodes) n = some Status.pending ∨
    getStatus (initAll α nodes) n = none := by
  suffices h : ∀ (s : ResultsDAG α),
      (∀ m, getStatus s m = some Status.pending ∨ getStatus s m = none) →
      (∀ m, getStatus (nodes.foldl initNode s) m = some Status.pending ∨
        getStatus (nodes.foldl initNode s) m = none) by
    exact h ResultsDAG.empty (fun m => Or.inr rfl) n
  induction nodes with
  | nil => intro s hs m; exact hs m
  | cons a as ih =>
    intro s hs m
    refine ih (initNode s a) ?_ m
    intro m'
    by_cases hm : m' = a
    · subst hm; exact Or.inl (by simp [getStatus, getResult, initNode, getKey_setKey_self])
    · have : getStatus (initNode s a) m' = getStatus s m' := by
        simp [getStatus, getResult, initNode, getKey_setKey_ne _ _ _ _ hm]
      rw [this]; exact hs m'

theorem initAll_queue_nil {α : Type} (nodes : List Nat) :
    (initAll α nodes).updatesQueue = [] := by
  suffices h : ∀ (s : ResultsDAG α),
      (nodes.foldl initNode s).updatesQueue = s.updatesQueue by
    exact h ResultsDAG.empty
  induction nodes with
  | nil => intro s; rfl
  | cons a as ih => intro s; simpa [initNode] using ih (initNode s a)

theorem schedInv_init {α : Type} (edges : List (Nat × Nat)) (nodes : List Nat) :
    SchedInv edges (initSched α nodes) := by
  refine ⟨?_, ?_, ?_⟩
  · intro n h; simp [initSched] at h
  · intro n st hst hterm
    have hdag : (initSched α nodes).dag = initAll α nodes := rfl
    rw [hdag] at hst
    rcases initAll_status_pending (α := α) nodes n with h | h
    · rw [h] at hst
      obtain rfl := Option.some.inj hst
      rcases hterm with h1 | h1 <;> exact Status.noConfusion h1
    · rw [h] at hst
      exact Option.noConfusion hst
  · intro p c hpc q1 nd q2 hdec hproc
    exfalso
    have hq : (initSched α nodes).dag.updatesQueue = [] := initAll_queue_nil nodes
    rw [hq] at hdec
    exact List.cons_ne_nil _ _ (List.append_eq_nil.mp hdec.symm).2

theorem schedInv_step {α : Type} (edges : List (Nat × Nat)) (s s' : SchedState α)
    (hinv : SchedInv edges s) (hstep : Step edges s s') : SchedInv edges s' := by
  obtain ⟨inv1, inv2, inv3⟩ := hinv
  cases hstep with
  | resume n h0 hpar =>
    refine ⟨?_, ?_, ?_⟩
    · intro m hm
      simp only [upd] at hm
      by_cases hmn : m = n
      · rw [if_pos hmn] at hm; exact absurd hm (by decide)
      · rw [if_neg hmn] at hm
        obtain ⟨st, hst, hterm⟩ := inv1 m hm
        exact ⟨st, by simp [getStatus_markProcessing, hmn, hst], hterm⟩
    · intro m st hst hterm
      rw [getStatus_markProcessing] at hst
      by_cases hmn : m = n
      · rw [if_pos hmn] at hst
        obtain rfl := Option.some.inj hst
        rcases hterm with h1 | h1 <;> exact Status.noConfusion h1
      · rw [if_neg hmn] at hst
        obtain ⟨nd, hmem, hnd⟩ := inv2 m st hst hterm
        exact ⟨nd, by simp [markProcessing, hmem], hnd⟩
    · simp only [markProcessing]
      refine parentBeforeChild_append edges _ n _ inv3 ?_
      intro _ p hp
      obtain ⟨st, hst, hterm⟩ := inv1 p (hpar p hp)
      obtain ⟨nd, hmem, hnd⟩ := inv2 p st hst hterm
      exact ⟨nd, hmem, hnd ▸ hterm⟩
  | finishOk n r h1 =>
    refine ⟨?_, ?_, ?_⟩
    · intro m hm
      simp only [upd] at hm
      by_cases hmn : m = n
      · subst hmn
        exact ⟨Status.complete, by simp [getStatus_storeResult], Or.inl rfl⟩
      · rw [if_neg hmn] at hm
        obtain ⟨st, hst, hterm⟩ := inv1 m hm
        exact ⟨st, by simp [getStatus_storeResult, hmn, hst], hterm⟩
    · intro m st hst hterm
      rw [getStatus_storeResult] at hst
      by_cases hmn : m = n
      · rw [if_pos hmn] at hst
        obtain rfl := Option.some.inj hst
        subst hmn
        exact ⟨⟨Status.complete, some (ResVal.val r)⟩, by simp [storeResult], rfl⟩
      · rw [if_neg hmn] at hst
        obtain ⟨nd, hmem, hnd⟩ := inv2 m st hst hterm
        exact ⟨nd, by simp [storeResult, hmem], hnd⟩
    · simp only [storeResult]
      refine parentBeforeChild_append edges _ n _ inv3 ?_
      intro hproc
      simp at hproc
  | finishFail n e h1 =>
    refine ⟨?_, ?_, ?_⟩
    · intro m hm
      simp only [upd] at hm
      by_cases hmn : m = n
      · subst hmn
        exact ⟨Status.failed, by simp [getStatus_markFailed], Or.inr rfl⟩
      · rw [if_neg hmn] at hm
        obtain ⟨st, hst, hterm⟩ := inv1 m hm
        exact ⟨st, by simp [getStatus_markFailed, hmn, hst], hterm⟩
    · intro m st hst hterm
      rw [getStatus_markFailed] at hst
      by_cases hmn : m = n
      · rw [if_pos hmn] at hst
        obtain rfl := Option.some.inj hst
        subst hmn
        exact ⟨⟨Status.failed, some (ResVal.str e)⟩, by simp [markFailed], rfl⟩
      · rw [if_neg hmn] at hst
        obtain ⟨nd, hmem, hnd⟩ := inv2 m st hst hterm
        exact ⟨nd, by simp [markFailed, hmem], hnd⟩
    · simp only [markFailed]
      refine parentBeforeChild_append edges _ n _ inv3 ?_
      intro hproc
      simp at hproc

theorem schedInv_reachable {α : Type} (edges : List (Nat × Nat)) (nodes : List Nat)
    (s : SchedState α) (h : Reachable edges nodes s) : SchedInv edges s := by
  induction h with
  | refl => exact schedInv_init edges nodes
  | tail _ hstep ih => exact schedInv_step edges _ _ ih hstep

/-- **C1.**  In every state reachable by the orchestrator's cooperative
scheduling (tasks resume past their parent `gather` only once every parent
task has returned, and a returned task has written its terminal state), any
`processing` event for a child `c` of an edge `(p, c)` is preceded on the
update stream by a `complete` or `failed` event for the parent `p`: the
child is marked processing only after the parent reached a terminal state. -/
theorem c1_child_processing_after_parent_terminal {α : Type}
    (edges : List (Nat × Nat)) (nodes : List Nat) (s : SchedState α)
    (h : Reachable edges nodes s)
    (p c : Nat) (hpc : (p, c) ∈ edges)
    (q1 : List (Nat × NodeData α)) (nd : NodeData α) (q2 : List (Nat × NodeData α))
    (hq : s.dag.updatesQueue = q1 ++ (c, nd) :: q2)
    (hproc : nd.status = Status.processing) :
    ∃ nd', (p, nd') ∈ q1 ∧ TerminalSt nd'.status :=
  (schedInv_reachable edges nodes s h).2.2 p c hpc q1 nd q2 hq hproc

/-! ### Concrete two-node chain trace, witnessing C1 -/

def chainEdges : List (Nat × Nat) := [(1, 2)]

def chainNodes : List Nat := [1, 2]

def chainS0 : SchedState String := initSched String chainNodes

def chainS1 : SchedState String :=
  ⟨upd chainS0.pc 1 1, markProcessing chainS0.dag 1 ("Node is currently being explored")⟩

def chainS2 : SchedState String := ⟨upd chainS1.pc 1 2, storeResult chainS1.dag 1 ("r1")⟩

def chainS3 : SchedState String :=
  ⟨upd chainS2.pc 2 1, markProcessing chainS2.dag 2 ("Node is currently being explored")⟩

def chainS4 : SchedState String := ⟨upd chainS3.pc 2 2, storeResult chainS3.dag 2 ("r2")⟩

theorem chain_reachable : Reachable chainEdges chainNodes chainS4 := by
  have h1 : Step chainEdges chainS0 chainS1 :=
    Step.resume chainS0 1 rfl (by intro p hp; simp [chainEdges] at hp)
  have h2 : Step chainEdges chainS1 chainS2 := Step.finishOk chainS1 1 ("r1") rfl
  have h3 : Step chainEdges chainS2 chainS3 :=
    Step.resume chainS2 2 rfl (by
      intro p hp
      simp [chainEdges] at hp
      subst hp
      rfl)
  have h4 : Step chainEdges chainS3 chainS4 := Step.finishOk chainS3 2 ("r2") rfl
  exact Relation.ReflTransGen.tail
    (Relation.ReflTransGen.tail
      (Relation.ReflTransGen.tail (Relation.ReflTransGen.tail Relation.ReflTransGen.refl h1) h2)
      h3) h4

/-- **C1 witness.**  The two-node chain `1 → 2` run to completion: node 2's
`processing` event sits after node 1's `complete` event on the stream, and
the theorem applied at this concrete trace produces the terminal parent
event. -/
def chainEv1 : Nat × NodeData String :=
  (1, ⟨Status.processing, some (ResVal.str ("Node is currently being explored"))⟩)

def chainEv2 : Nat × NodeData String := (1, ⟨Status.complete, some (ResVal.val ("r1"))⟩)

def chainEv3 : Nat × NodeData String :=
  (2, ⟨Status.processing, some (ResVal.str ("Node is currently being explored"))⟩)

def chainEv4 : Nat × NodeData String := (2, ⟨Status.complete, some (ResVal.val ("r2"))⟩)

theorem c1_witness :
    ((1, 2) ∈ chainEdges) ∧
    chainS4.dag.updatesQueue = [chainEv1, chainEv2] ++ (2, chainEv3.2) :: [chainEv4] ∧
    ∃ nd', ((1 : Nat), nd') ∈ [chainEv1, chainEv2] ∧ TerminalSt nd'.status := by
  refine ⟨by decide, by decide, ?_⟩
  exact c1_child_processing_after_parent_terminal chainEdges chainNodes chainS4
    chain_reachable 1 2 (by decide) [chainEv1, chainEv2] chainEv3.2 [chainEv4]
    (by decide) (by decide)

/-! ## PromptManager (src/Backend/Report_Compose/PromptManager.py)

`load_dag` expands each chain-literal `a -> b -> c` into consecutive edge
pairs and then asks networkx whether the resulting digraph is acyclic,
raising on a cycle.  Crucially it never compares edge endpoints against the
loaded prompt ids.  The networkx acyclicity test is modelled by the
executable `hasCycleB` below, proved equivalent to the existence of a
closed directed walk. -/

def edgesOfChains (chains : List (List Nat)) : List (Nat × Nat) :=
  List.flatten (chains.map (fun c => c.zip c.tail))

def nodesOf (edges : List (Nat × Nat)) : List Nat :=
  (List.flatten (edges.map (fun e => [e.1, e.2]))).dedup

def reachF (edges : List (Nat × Nat)) : Nat → Nat → Nat → Bool
  | 0, _, _ => false
  | fuel + 1, a, b =>
    edges.any (fun e => e.1 == a && (e.2 == b || reachF edges fuel e.2 b))

def hasCycleB (edges : List (Nat × Nat)) : Bool :=
  (nodesOf edges).any (fun n => reachF edges (nodesOf edges).length n n)

def adjPairs : List Nat → List (Nat × Nat)
  | [] => []
  | [_] => []
  | a :: b :: rest => (a, b) :: adjPairs (b :: rest)

def IsWalk (edges : List (Nat × Nat)) (l : List Nat) : Prop :=
  ∀ p ∈ adjPairs l, p ∈ edges

def HasCycleP (edges : List (Nat × Nat)) : Prop :=
  ∃ a l, IsWalk edges (a :: l) ∧ l ≠ [] ∧ l.getLast? = some a

theorem mem_nodesOf (edges : List (Nat × Nat)) (e : Nat × Nat) (he : e ∈ edges) :
    e.1 ∈ nodesOf edges ∧ e.2 ∈ nodesOf edges := by
  constructor <;>
    · rw [nodesOf, List.mem_dedup, List.mem_flatten]
      exact ⟨[e.1, e.2], List.mem_map_of_mem _ he, by simp⟩

theorem adjPairs_cons_mem (a : Nat) (t : List Nat) (p : Nat × Nat)
    (h : p ∈ adjPairs t) : p ∈ adjPairs (a :: t) := by
  cases t with
  | nil => simp [adjPairs] at h
  | cons b t' => exact List.mem_cons_of_mem _ h

theorem adjPairs_append_right : ∀ (u v : List Nat) (p : Nat × Nat),
    p ∈ adjPairs v → p ∈ adjPairs (u ++ v)
  | [], _, _, h => h
  | a :: u', v, p, h => by
    have := adjPairs_append_right u' v p h
    exact adjPairs_cons_mem a _ p this

theorem adjPairs_append_left : ∀ (u v : List Nat) (p : Nat × Nat),
    p ∈ adjPairs u → p ∈ adjPairs (u ++ v)
  | [], _, _, h => by simp [adjPairs] at h
  | [_], _, _, h => by simp [adjPairs] at h
  | a :: b :: u', v, p, h => by
    simp only [adjPairs, List.mem_cons] at h
    rcases h with h | h
    · simp [List.cons_append, adjPairs, h]
    · have := adjPairs_append_left (b :: u') v p h
      simp only [List.cons_append, adjPairs, List.mem_cons]
      exact Or.inr (by simpa using this)

theorem isWalk_append_left (edges : List (Nat × Nat)) (u v : List Nat)
    (h : IsWalk edges (u ++ v)) : IsWalk edges u :=
  fun p hp => h p (adjPairs_append_left u v p hp)

theorem isWalk_append_right (edges : List (Nat × Nat)) (u v : List Nat)
    (h : IsWalk edges (u ++ v)) : IsWalk edges v :=
  fun p hp => h p (adjPairs_append_right u v p hp)

theorem isWalk_tail (edges : List (Nat × Nat)) (a : Nat) (t : List Nat)
    (h : IsWalk edges (a :: t)) : IsWalk edges t :=
  fun p hp => h p (adjPairs_cons_mem a t p hp)

theorem walk_mem_nodes : ∀ (edges : List (Nat × Nat)) (l : List Nat),
    IsWalk edges l → 2 ≤ l.length → ∀ x ∈ l, x ∈ nodesOf edges
  | edges, a :: b :: rest, hw, _, x, hx => by
    have hab : (a, b) ∈ edges := hw (a, b) (by simp [adjPairs])
    have hends := mem_nodesOf edges (a, b) hab
    rcases List.mem_cons.mp hx with rfl | hx'
    · exact hends.1
    · cases rest with
      | nil =>
        rcases List.mem_cons.mp hx' with rfl | h0
        · exact hends.2
        · simp at h0
      | cons c rest' =>
        exact walk_mem_nodes edges (b :: c :: rest') (isWalk_tail edges a _ hw)
          (by simp) x hx'

theorem dupSplit : ∀ (l : List Nat), ¬ l.Nodup →
    ∃ x l1 l2 l3, l = l1 ++ x :: l2 ++ x :: l3
  | [], h => absurd List.nodup_nil h
  | a :: as, h => by
    by_cases ha : a ∈ as
    · obtain ⟨s, t, rfl⟩ := List.append_of_mem ha
      exact ⟨a, [], s, t, rfl⟩
    · have has : ¬ as.Nodup := fun hnd => h (List.nodup_cons.mpr ⟨ha, hnd⟩)
      obtain ⟨x, l1, l2, l3, rfl⟩ := dupSplit as has
      exact ⟨x, a :: l1, l2, l3, rfl⟩

theorem pigeonhole_list (l S : List Nat) (hsub : ∀ x ∈ l, x ∈ S)
    (hlen : S.length < l.length) : ¬ l.Nodup := by
  intro hnd
  have h1 : l.toFinset.card = l.length := List.toFinset_card_of_nodup hnd
  have h2 : l.toFinset ⊆ S.toFinset := by
    intro x hx
    rw [List.mem_toFinset] at hx ⊢
    exact hsub x hx
  have h3 := Finset.card_le_card h2
  have h4 : S.toFinset.card ≤ S.length := S.toFinset_card_le
  omega

theorem reachF_sound (edges : List (Nat × Nat)) :
    ∀ (fuel a b : Nat), reachF edges fuel a b = true →
      ∃ l, IsWalk edges (a :: l) ∧ l ≠ [] ∧ l.getLast? = some b := by
  intro fuel
  induction fuel with
  | zero => intro a b h; simp [reachF] at h
  | succ fuel ih =>
    intro a b h
    rw [reachF, List.any_eq_true] at h
    obtain ⟨e, he, hcond⟩ := h
    rw [Bool.and_eq_true, beq_iff_eq] at hcond
    obtain ⟨rfl, hcond⟩ := hcond
    rw [Bool.or_eq_true, beq_iff_eq] at hcond
    rcases hcond with rfl | hrec
    · refine ⟨[e.2], ?_, by simp, by simp⟩
      intro p hp
      simp [adjPairs] at hp
      simpa [hp]
    · obtain ⟨l', hw, hne, hlast⟩ := ih e.2 b hrec
      refine ⟨e.2 :: l', ?_, by simp, ?_⟩
      · intro p hp
        cases l' with
        | nil => simp at hne
        | cons c rest =>
          simp only [adjPairs, List.mem_cons] at hp
          rcases hp with rfl | hp
          · simpa
          · exact hw p (by simpa [adjPairs] using hp)
      · cases l' with
        | nil => simp at hne
        | cons c rest => rw [List.getLast?_cons_cons]; exact hlast

theorem reachF_mono (edges : List (Nat × Nat)) :
    ∀ (fuel fuel' a b : Nat), fuel ≤ fuel' → reachF edges fuel a b = true →
      reachF edges fuel' a b = true := by
  intro fuel
  induction fuel with
  | zero => intro fuel' a b _ h; simp [reachF] at h
  | succ fuel ih =>
    intro fuel' a b hle h
    obtain ⟨fuel'', rfl⟩ : ∃ k, fuel' = k + 1 :=
      ⟨fuel' - 1, by omega⟩
    rw [reachF, List.any_eq_true] at h ⊢
    obtain ⟨e, he, hcond⟩ := h
    refine ⟨e, he, ?_⟩
    rw [Bool.and_eq_true] at hcond ⊢
    refine ⟨hcond.1, ?_⟩
    rcases Bool.or_eq_true _ _ |>.mp hcond.2 with hb | hrec
    · exact Bool.or_eq_true _ _ |>.mpr (Or.inl hb)
    · exact Bool.or_eq_true _ _ |>.mpr (Or.inr (ih fuel'' e.2 b (by omega) hrec))

theorem walk_reachF (edges : List (Nat × Nat)) :
    ∀ (l : List Nat) (a b : Nat), IsWalk edges (a :: l) → l ≠ [] →
      l.getLast? = some b → reachF edges l.length a b = true
  | [], _, _, _, hne, _ => absurd rfl hne
  | c :: l'', a, b, hw, _, hlast => by
    have hac : (a, c) ∈ edges := hw (a, c) (by simp [adjPairs])
    rw [List.length_cons, reachF, List.any_eq_true]
    refine ⟨(a, c), hac, ?_⟩
    rw [Bool.and_eq_true, Bool.or_eq_true]
    refine ⟨by simp, ?_⟩
    cases l'' with
    | nil =>
      simp only [List.getLast?_singleton, Option.some.injEq] at hlast
      exact Or.inl (by simp [hlast])
    | cons d rest =>
      refine Or.inr ?_
      have hw' : IsWalk edges (c :: d :: rest) := isWalk_tail edges a _ hw
      have hlast' : (d :: rest).getLast? = some b := by
        rwa [List.getLast?_cons_cons] at hlast
      exact walk_reachF edges (d :: rest) c b hw' (by simp) hlast'

theorem closed_walk_short (edges : List (Nat × Nat)) :
    ∀ (k : Nat) (l : List Nat) (a : Nat), l.length ≤ k → IsWalk edges (a :: l) →
      l ≠ [] → l.getLast? = some a →
      ∃ m l', IsWalk edges (m :: l') ∧ l' ≠ [] ∧ l'.getLast? = some m ∧
        l'.length ≤ (nodesOf edges).length := by
  intro k
  induction k with
  | zero =>
    intro l a hlen _ hne _
    exact absurd (List.length_eq_zero.mp (Nat.le_zero.mp hlen)) hne
  | succ k ih =>
    intro l a hlen hw hne hlast
    by_cases hshort : l.length ≤ (nodesOf edges).length
    · exact ⟨a, l, hw, hne, hlast, hshort⟩
    · push_neg at hshort
      -- the closed walk without its final (repeated) vertex
      have hfrontsub : ∀ x ∈ a :: l.dropLast, x ∈ nodesOf edges := by
        intro x hx
        refine walk_mem_nodes edges (a :: l) hw ?_ x ?_
        · have : 1 ≤ l.length := List.length_pos.mpr hne
          simp only [List.length_cons]
          omega
        · rcases List.mem_cons.mp hx with rfl | hx'
          · exact List.mem_cons_self _ _
          · exact List.mem_cons_of_mem a ((List.dropLast_sublist l).subset hx')
      have hfrontlen : (nodesOf edges).length < (a :: l.dropLast).length := by
        have h1 : l.dropLast.length = l.length - 1 := List.length_dropLast l
        have : 1 ≤ l.length := List.length_pos.mpr hne
        simp only [List.length_cons]
        omega
      have hnodup := pigeonhole_list (a :: l.dropLast) (nodesOf edges) hfrontsub hfrontlen
      obtain ⟨x, l1, l2, l3, hdec⟩ := dupSplit (a :: l.dropLast) hnodup
      -- the inner closed walk at the repeated vertex x
      have hwfront : IsWalk edges (a :: l.dropLast) := by
        have hsplit : a :: l = (a :: l.dropLast) ++ [l.getLast (by simp [hne])] := by
          show a :: l = a :: (l.dropLast ++ [l.getLast (by simp [hne])])
          congr 1
          exact (List.dropLast_append_getLast hne).symm
        exact isWalk_append_left edges _ _ (hsplit ▸ hw)
      have hv : IsWalk edges ((x :: l2) ++ (x :: l3)) := by
        have h0 : IsWalk edges (l1 ++ ((x :: l2) ++ (x :: l3))) := by
          have h0' := hwfront
          rw [hdec] at h0'
          simpa [List.append_assoc] using h0'
        exact isWalk_append_right edges l1 _ h0
      have hseg : IsWalk edges ((x :: l2) ++ [x]) := by
        cases l3 with
        | nil => exact hv
        | cons c l3' =>
          have heq : (x :: l2) ++ (x :: c :: l3') = ((x :: l2) ++ [x]) ++ (c :: l3') := by
            simp
          exact isWalk_append_left edges _ _ (heq ▸ hv)
      have hlenred : (l2 ++ [x]).length ≤ k := by
        have h1 := congrArg List.length hdec
        have h2 : l.dropLast.length = l.length - 1 := List.length_dropLast l
        have h3 : 1 ≤ l.length := List.length_pos.mpr hne
        simp [List.length_append] at h1 ⊢
        omega
      refine ih (l2 ++ [x]) x hlenred ?_ (by simp) (by simp)
      simpa using hseg

theorem hasCycle_iff (edges : List (Nat × Nat)) :
    hasCycleB edges = true ↔ HasCycleP edges := by
  constructor
  · intro h
    rw [hasCycleB, List.any_eq_true] at h
    obtain ⟨n, _, hr⟩ := h
    obtain ⟨l, hw, hne, hlast⟩ := reachF_sound edges _ n n hr
    exact ⟨n, l, hw, hne, hlast⟩
  · rintro ⟨a, l, hw, hne, hlast⟩
    obtain ⟨m, l', hw', hne', hlast', hlen⟩ :=
      closed_walk_short edges l.length l a le_rfl hw hne hlast
    rw [hasCycleB, List.any_eq_true]
    have hmem : m ∈ nodesOf edges := by
      refine walk_mem_nodes edges (m :: l') hw' ?_ m (List.mem_cons_self _ _)
      have : 1 ≤ l'.length := List.length_pos.mpr hne'
      simp only [List.length_cons]
      omega
    refine ⟨m, hmem, ?_⟩
    exact reachF_mono edges l'.length (nodesOf edges).length m m hlen
      (walk_reachF edges l' m m hw' hne' hlast')

/-! ### PromptManager.load_prompts / load_dag

A YAML prompt entry is kept when it is a dict containing a `text` key
(`hasText`); among those, a missing `id` raises.  Chains have already been
split on `->` and int-parsed (`dagData` is a list of integer chains). -/

structure PromptSpecEntry : Type where
  hasText : Bool
  id : Option Nat
  system : Bool
  sectionName : Option String
  text : String
deriving DecidableEq

structure PromptObj : Type where
  sectionTitle : String
  text : String
  id : Nat
  system : Bool
deriving DecidableEq

structure PMState : Type where
  promptIdMap : List (Nat × PromptObj)
  dagEdges : List (Nat × Nat)
deriving DecidableEq

def buildPromptMap : List (String × PromptSpecEntry) → List (Nat × PromptObj) →
    Except String (List (Nat × PromptObj))
  | [], acc => Except.ok acc
  | (title, e) :: rest, acc =>
    if e.hasText then
      match e.id with
      | none => Except.error ("Prompt " ++ title ++ " is missing an ID.")
      | some pid =>
        buildPromptMap rest
          (setKey acc pid ⟨e.sectionName.getD title, e.text, pid, e.system⟩)
    else
      buildPromptMap rest acc

def loadDag (chains : List (List Nat)) : Except String (List (Nat × Nat)) :=
  let edges := edgesOfChains chains
  if hasCycleB edges then
    Except.error ("Invalid DAG detected! The prompt dependencies contain cycles.")
  else
    Except.ok edges

def loadPromptsDoc (entries : List (String × PromptSpecEntry)) (chains : List (List Nat)) :
    Except String PMState :=
  match buildPromptMap entries [] with
  | Except.error e => Except.error e
  | Except.ok m =>
    match loadDag chains with
    | Except.error e => Except.error e
    | Except.ok edges => Except.ok ⟨m, edges⟩

/-- **C2 counterexample.**  A document whose only chain is `1 -> 99`, where
no prompt carries id `99`, loads successfully: `load_dag` never checks edge
endpoints against the loaded prompt ids, so no `DanglingEdge` error exists
and the "only if every endpoint is defined" direction of the claim fails. -/
theorem c2_counterexample_dangling_edge_accepted :
    loadPromptsDoc
        [("A", ⟨true, some 1, false, none, "ta"⟩), ("B", ⟨true, some 2, false, none, "tb"⟩)]
        [[1, 99]]
      = Except.ok ⟨[(1, ⟨"A", "ta", 1, false⟩), (2, ⟨"B", "tb", 2, false⟩)], [(1, 99)]⟩ ∧
    getKey ([(1, (⟨"A", "ta", 1, false⟩ : PromptObj)), (2, ⟨"B", "tb", 2, false⟩)]) 99
      = none := by
  constructor
  · rfl
  · rfl

theorem buildPromptMap_ok_iff (entries : List (String × PromptSpecEntry)) :
    ∀ acc, (∃ m, buildPromptMap entries acc = Except.ok m) ↔
      (∀ p ∈ entries, p.2.hasText = true → p.2.id ≠ none) := by
  induction entries with
  | nil => intro acc; simp [buildPromptMap]
  | cons e rest ih =>
    intro acc
    obtain ⟨title, pe⟩ := e
    by_cases ht : pe.hasText
    · cases hid : pe.id with
      | none =>
        simp only [buildPromptMap, ht, if_pos, hid]
        constructor
        · rintro ⟨m, hm⟩
          exact absurd hm (by simp)
        · intro h
          exact absurd hid (h (title, pe) (List.mem_cons_self _ _) ht)
      | some pid =>
        simp only [buildPromptMap, ht, if_pos, hid]
        rw [ih]
        constructor
        · intro h
          intro p hp hpt
          rcases List.mem_cons.mp hp with rfl | hp'
          · simp [hid]
          · exact h p hp' hpt
        · intro h p hp hpt
          exact h p (List.mem_cons_of_mem _ hp) hpt
    · have ht' : pe.hasText = false := by
        simpa using ht
      simp only [buildPromptMap, ht', Bool.false_eq_true, if_neg, not_false_iff]
      rw [ih]
      constructor
      · intro h p hp hpt
        rcases List.mem_cons.mp hp with rfl | hp'
        · exact absurd hpt (by simp [ht'])
        · exact h p hp' hpt
      · intro h p hp hpt
        exact h p (List.mem_cons_of_mem _ hp) hpt

/-- **C2 (amended).**  Loading a prompt document succeeds iff every kept
prompt entry carries an id and the parsed edge set is acyclic (no closed
directed walk).  Edge endpoints are never validated against the defined
prompt ids: a dangling edge is accepted silently and there is no
`DanglingEdge` failure. -/
theorem c2_amended_load_ok_iff :
    ∀ (entries : List (String × PromptSpecEntry)) (chains : List (List Nat)),
      (∃ s, loadPromptsDoc entries chains = Except.ok s) ↔
        ((∀ p ∈ entries, p.2.hasText = true → p.2.id ≠ none) ∧
          ¬ HasCycleP (edgesOfChains chains)) := by
  intro entries chains
  rw [← buildPromptMap_ok_iff entries []]
  rw [← hasCycle_iff]
  constructor
  · rintro ⟨s, hs⟩
    rw [loadPromptsDoc] at hs
    cases hb : buildPromptMap entries [] with
    | error e => rw [hb] at hs; exact absurd hs (by simp)
    | ok m =>
      rw [hb] at hs
      refine ⟨⟨m, rfl⟩, ?_⟩
      rw [loadDag] at hs
      intro hcyc
      rw [if_pos hcyc] at hs
      exact absurd hs (by simp)
  · rintro ⟨⟨m, hm⟩, hnc⟩
    refine ⟨⟨m, edgesOfChains chains⟩, ?_⟩
    rw [loadPromptsDoc, hm, loadDag, if_neg hnc]

theorem c2_witness :
    ∃ s, loadPromptsDoc [("A", ⟨true, some 1, false, none, "ta"⟩)] [[1, 2]]
      = Except.ok s := by
  apply (c2_amended_load_ok_iff [("A", ⟨true, some 1, false, none, "ta"⟩)] [[1, 2]]).mpr
  refine ⟨by decide, fun h => ?_⟩
  have hb := (hasCycle_iff (edgesOfChains [[1, 2]])).mpr h
  exact absurd hb (by decide)

/-! ## Integrator.get_ancestor_chat_hist (src/Backend/Report_Compose/src/Integrator.py)

The ancestors set (`nx.ancestors`) and the full topological order
(`nx.topological_sort`) are produced by networkx; they enter the embedding
as the list parameters `anc` and `fullOrder`.  The networkx contract — every
strict ancestor precedes the node in any topological order, and the node
itself is not among its strict ancestors — appears as hypotheses of the
theorem. -/

structure ChatMsg : Type where
  entity : String
  text : String
deriving DecidableEq

/-- The dict stored by `queue_node` on success:
`{'llm': response, 'online_data': ..., 'section_tile': name}` (sic). -/
structure StoredResult : Type where
  llm : String
  onlineData : String
  sectionTile : String
deriving DecidableEq

def llmTextOf : Option (ResVal StoredResult) → String
  | some (ResVal.val r) => r.llm
  | some (ResVal.str s) => s
  | none => ""

def nodeContribution (pm : List (Nat × PromptObj)) (store : ResultsDAG StoredResult)
    (n : Nat) : List ChatMsg :=
  match getKey pm n with
  | none => []
  | some prompt =>
    let base : List ChatMsg :=
      if prompt.system then [ChatMsg.mk ("system") prompt.text]
      else [ChatMsg.mk ("user") prompt.text]
    match getResult store n with
    | none => base
    | some nd =>
      if nd.status = Status.complete ∧ prompt.system = false then
        base ++ [ChatMsg.mk ("llm") (llmTextOf nd.result)]
      else base

def getAncestorChatHist (pm : List (Nat × PromptObj)) (store : ResultsDAG StoredResult)
    (anc : List Nat) (fullOrder : List Nat) (nodeId : Nat) : List ChatMsg :=
  let pathNodes := fullOrder.filter (fun n => anc.contains n || n == nodeId)
  List.flatten (pathNodes.map (nodeContribution pm store))

theorem nodeContribution_not_complete (pm : List (Nat × PromptObj))
    (store : ResultsDAG StoredResult) (n : Nat) (prompt : PromptObj)
    (hpm : getKey pm n = some prompt)
    (hstat : ∀ nd, getResult store n = some nd → nd.status ≠ Status.complete) :
    nodeContribution pm store n
      = [ChatMsg.mk (if prompt.system then "system" else "user") prompt.text] := by
  unfold nodeContribution
  rw [hpm]
  cases hres : getResult store n with
  | none => cases hp : prompt.system <;> simp [hp]
  | some nd =>
    have hne := hstat nd hres
    cases hp : prompt.system <;> simp [hp, hne]

/-- **C4.**  Under the networkx contract (strict ancestors precede the node
in the topological order, the node is not its own ancestor) and the run
invariant that the node's own result is not yet `complete` when its history
is assembled, the ancestor chat history equals: the contributions of the
ancestors in topological order — `{system,text}` for a system prompt,
`{user,text}` otherwise, followed by `{llm, llm_text}` exactly when the
ancestor is non-system with a `complete` stored result — with the node's own
prompt message last and carrying no `llm` follow-up. -/
theorem c4_ancestor_chat_hist (pm : List (Nat × PromptObj)) (store : ResultsDAG StoredResult)
    (anc l1 l2 : List Nat) (nodeId : Nat) (prompt : PromptObj)
    (hpm : getKey pm nodeId = some prompt)
    (hl1 : nodeId ∉ l1)
    (hl2 : ∀ x ∈ l2, x ∉ anc ∧ x ≠ nodeId)
    (hstat : ∀ nd, getResult store nodeId = some nd → nd.status ≠ Status.complete) :
    getAncestorChatHist pm store anc (l1 ++ nodeId :: l2) nodeId
      = List.flatten ((l1.filter (fun n => anc.contains n)).map (nodeContribution pm store))
        ++ [ChatMsg.mk (if prompt.system then "system" else "user") prompt.text] := by
  unfold getAncestorChatHist
  have hfl2 : l2.filter (fun n => anc.contains n || n == nodeId) = [] := by
    rw [List.filter_eq_nil_iff]
    intro x hx
    obtain ⟨hxa, hxn⟩ := hl2 x hx
    simp [hxa, hxn]
  have hfl1 : l1.filter (fun n => anc.contains n || n == nodeId)
      = l1.filter (fun n => anc.contains n) := by
    apply List.filter_congr
    intro x hx
    have hxn : x ≠ nodeId := fun hh => hl1 (hh ▸ hx)
    simp [hxn]
  have hfnode : (fun n => anc.contains n || n == nodeId) nodeId = true := by simp
  simp only [List.filter_append, List.filter_cons, beq_self_eq_true, Bool.or_true,
    if_true, hfl2, hfl1, List.map_append, List.flatten_append, List.map_cons,
    List.map_nil, List.flatten_cons, List.flatten_nil, List.append_nil]
  congr 1
  exact nodeContribution_not_complete pm store nodeId prompt hpm hstat

/-! ### Concrete diamond graph witnessing C4 (spec scenarios 2 and 3) -/

def diamondPm : List (Nat × PromptObj) :=
  [(1, ⟨"S1", "t1", 1, true⟩), (2, ⟨"S2", "t2", 2, false⟩),
   (3, ⟨"S3", "t3", 3, false⟩), (4, ⟨"S4", "t4", 4, false⟩)]

def diamondStore : ResultsDAG StoredResult :=
  markProcessing
    (storeResult
      (storeResult
        (storeResult
          (initNode (initNode (initNode (initNode ResultsDAG.empty 1) 2) 3) 4)
          1 ⟨"**This is a system prompt**", "na", "S1"⟩)
        2 ⟨"llm2", "od2", "S2"⟩)
      3 ⟨"llm3", "od3", "S3"⟩)
    4 ("Node is currently being explored")

theorem c4_witness :
    (getKey diamondPm 4 = some ⟨"S4", "t4", 4, false⟩) ∧
    ((4 : Nat) ∉ [1, 2, 3]) ∧
    (∀ nd, getResult diamondStore 4 = some nd → nd.status ≠ Status.complete) ∧
    getAncestorChatHist diamondPm diamondStore [1, 2, 3] ([1, 2, 3] ++ 4 :: []) 4
      = [ChatMsg.mk ("system") ("t1"),
         ChatMsg.mk ("user") ("t2"), ChatMsg.mk ("llm") ("llm2"),
         ChatMsg.mk ("user") ("t3"), ChatMsg.mk ("llm") ("llm3"),
         ChatMsg.mk ("user") ("t4")] := by
  refine ⟨by decide, by decide, by decide, ?_⟩
  refine (c4_ancestor_chat_hist diamondPm diamondStore [1, 2, 3] [1, 2, 3] [] 4
    ⟨"S4", "t4", 4, false⟩ (by decide) (by decide) (by decide) (by decide)).trans ?_
  decide

/-! ## DataMolder.process_data (src/Backend/Report_Compose/src/DataMolder.py)

The retry loop: invoke the LLM; on an error whose message contains
"Token indices sequence length" or "exceeds maximum", find the entry of
`online_data["results"]` with the (first) longest `scrapped_text`, replace
that text by its first half, and retry, up to `max_retries = 5` calls; any
other error, an absent/empty results list, or an all-empty longest text
breaks the loop and the call raises.  The LLM is the external collaborator:
it enters as a function of the attempt index and the current results. -/

structure OnlineItem : Type where
  scrappedText : String
deriving DecidableEq

def strLen (s : String) : Nat := s.data.length

def strTake (s : String) (n : Nat) : String := ⟨s.data.take n⟩

def segStartsAt : List Char → List Char → Bool
  | [], _ => true
  | _ :: _, [] => false
  | p :: ps, c :: cs => p == c && segStartsAt ps cs

def hasSeg (pat : List Char) : List Char → Bool
  | [] => segStartsAt pat []
  | c :: cs => segStartsAt pat (c :: cs) || hasSeg pat cs

def isLengthErrB (msg : String) : Bool :=
  hasSeg ("Token indices sequence length").data msg.data ||
  hasSeg ("exceeds maximum").data msg.data

def findLongestAux : List OnlineItem → Nat → Option Nat → Nat → (Option Nat × Nat)
  | [], _, best, bestLen => (best, bestLen)
  | it :: rest, idx, best, bestLen =>
    if strLen it.scrappedText > bestLen then
      findLongestAux rest (idx + 1) (some idx) (strLen it.scrappedText)
    else
      findLongestAux rest (idx + 1) best bestLen

def findLongest (items : List OnlineItem) : Option Nat × Nat :=
  findLongestAux items 0 none 0

def halveLongest (items : List OnlineItem) : Option (List OnlineItem) :=
  match findLongest items with
  | (some i, m) =>
    if 0 < m then
      match items[i]? with
      | some it => some (items.set i ⟨strTake it.scrappedText (strLen it.scrappedText / 2)⟩)
      | none => none
    else none
  | (none, _) => none

inductive LLMOutcome : Type
  | ok (response : String) (webRefs : String)
  | err (msg : String)

def processDataLoop (llm : Nat → Option (List OnlineItem) → LLMOutcome) :
    Nat → Nat → Option (List OnlineItem) →
    Except String (String × String × Option (List OnlineItem) × Nat)
  | _, 0, _ => Except.error ("DataMolder process_data failed")
  | attempt, fuel + 1, results =>
    match llm attempt results with
    | LLMOutcome.ok resp refs => Except.ok (resp, refs, results, attempt)
    | LLMOutcome.err msg =>
      if isLengthErrB msg then
        match results with
        | some items =>
          if items.isEmpty then Except.error ("DataMolder process_data failed")
          else
            match halveLongest items with
            | some items' => processDataLoop llm (attempt + 1) fuel (some items')
            | none => Except.error ("DataMolder process_data failed")
        | none => Except.error ("DataMolder process_data failed")
      else Except.error ("DataMolder process_data failed")

def processData (llm : Nat → Option (List OnlineItem) → LLMOutcome)
    (results : Option (List OnlineItem)) :
    Except String (String × String × Option (List OnlineItem) × Nat) :=
  processDataLoop llm 0 5 results

/-- `queue_node`'s try/except around the node body: a successful
`process_data` leads to `store_result`, any raise to `mark_failed`. -/
def queueNodeFinish (dag : ResultsDAG StoredResult) (nodeId : Nat)
    (name onlineRepr : String)
    (outcome : Except String (String × String × Option (List OnlineItem) × Nat)) :
    ResultsDAG StoredResult :=
  match outcome with
  | Except.ok (resp, _, _, _) => storeResult dag nodeId ⟨resp, onlineRepr, name⟩
  | Except.error e => markFailed dag nodeId e

theorem strLen_strTake (s : String) (n : Nat) :
    strLen (strTake s n) = min n (strLen s) := by
  simp [strLen, strTake]

theorem strTake_strTake (s : String) (m n : Nat) :
    strTake (strTake s n) m = strTake s (min m n) := by
  simp [strTake, List.take_take]

theorem findLongest_pair (a b : OnlineItem)
    (h1 : 0 < strLen a.scrappedText)
    (h2 : strLen b.scrappedText ≤ strLen a.scrappedText) :
    findLongest [a, b] = (some 0, strLen a.scrappedText) := by
  have h2' : ¬ strLen b.scrappedText > strLen a.scrappedText := by omega
  simp [findLongest, findLongestAux, h1, h2']

theorem halveLongest_pair (a b : OnlineItem)
    (h1 : 0 < strLen a.scrappedText)
    (h2 : strLen b.scrappedText ≤ strLen a.scrappedText) :
    halveLongest [a, b]
      = some [⟨strTake a.scrappedText (strLen a.scrappedText / 2)⟩, b] := by
  rw [halveLongest, findLongest_pair a b h1 h2]
  simp [h1, List.set]

theorem processDataLoop_ok (llm : Nat → Option (List OnlineItem) → LLMOutcome)
    (attempt fuel : Nat) (res : Option (List OnlineItem)) (resp refs : String)
    (h : llm attempt res = LLMOutcome.ok resp refs) :
    processDataLoop llm attempt (fuel + 1) res = Except.ok (resp, refs, res, attempt) := by
  simp [processDataLoop, h]

theorem processDataLoop_halve (llm : Nat → Option (List OnlineItem) → LLMOutcome)
    (attempt fuel : Nat) (items items' : List OnlineItem) (m : String)
    (h : llm attempt (some items) = LLMOutcome.err m)
    (hm : isLengthErrB m = true)
    (hne : items.isEmpty = false)
    (hh : halveLongest items = some items') :
    processDataLoop llm attempt (fuel + 1) (some items)
      = processDataLoop llm (attempt + 1) fuel (some items') := by
  simp [processDataLoop, h, hm, hne, hh]

theorem processDataLoop_never_ok (llm : Nat → Option (List OnlineItem) → LLMOutcome)
    (hbad : ∀ k res, ∃ m, llm k res = LLMOutcome.err m) :
    ∀ fuel attempt res, ∃ msg, processDataLoop llm attempt fuel res = Except.error msg := by
  intro fuel
  induction fuel with
  | zero => intro attempt res; exact ⟨_, rfl⟩
  | succ fuel ih =>
    intro attempt res
    obtain ⟨m, hm⟩ := hbad attempt res
    by_cases hlen : isLengthErrB m
    · cases res with
      | none => exact ⟨"DataMolder process_data failed", by simp [processDataLoop, hm, hlen]⟩
      | some items =>
        by_cases hemp : items.isEmpty
        · exact ⟨"DataMolder process_data failed", by simp [processDataLoop, hm, hlen, hemp]⟩
        · cases hh : halveLongest items with
          | none =>
            exact ⟨"DataMolder process_data failed",
              by simp [processDataLoop, hm, hlen, hemp, hh]⟩
          | some items' =>
            obtain ⟨msg, hmsg⟩ := ih (attempt + 1) (some items')
            refine ⟨msg, ?_⟩
            rw [processDataLoop_halve llm attempt fuel items items' m hm hlen
              (by simpa using hemp) hh]
            exact hmsg
    · exact ⟨"DataMolder process_data failed", by simp [processDataLoop, hm, hlen]⟩

/-- **C6.**  With `results = [x, y]` where `|x| = 100000` and `|y| = 50`, an
LLM that fails with a context-length-class error on attempts 0 and 1 and
succeeds on attempt 2 makes `process_data` halve the first (longest) entry
exactly twice — its text ends as the first `25000` characters of `x` — and
return the successful response with the third attempt; storing that outcome
marks the node complete.  An LLM that never succeeds makes `process_data`
raise (the loop allows at most 5 calls), and `queue_node` then marks the
node failed. -/
theorem c6_length_retry_halves_longest
    (llm : Nat → Option (List OnlineItem) → LLMOutcome)
    (x y resp refs e0 e1 : String)
    (hx : strLen x = 100000) (hy : strLen y = 50)
    (h0 : ∀ res, llm 0 res = LLMOutcome.err e0) (he0 : isLengthErrB e0 = true)
    (h1 : ∀ res, llm 1 res = LLMOutcome.err e1) (he1 : isLengthErrB e1 = true)
    (h2 : ∀ res, llm 2 res = LLMOutcome.ok resp refs) :
    (processData llm (some [⟨x⟩, ⟨y⟩])
        = Except.ok (resp, refs, some [⟨strTake x 25000⟩, ⟨y⟩], 2)) ∧
    (∀ dag nodeId name od,
        getStatus (queueNodeFinish dag nodeId name od (processData llm (some [⟨x⟩, ⟨y⟩])))
          nodeId = some Status.complete) ∧
    (∀ (llmBad : Nat → Option (List OnlineItem) → LLMOutcome),
        (∀ k res, ∃ m, llmBad k res = LLMOutcome.err m) →
        ∃ msg, processData llmBad (some [⟨x⟩, ⟨y⟩]) = Except.error msg ∧
          ∀ dag nodeId name od,
            getStatus (queueNodeFinish dag nodeId name od
              (processData llmBad (some [⟨x⟩, ⟨y⟩]))) nodeId = some Status.failed) := by
  have hxa : strLen (OnlineItem.mk x).scrappedText = 100000 := hx
  have hya : strLen (OnlineItem.mk y).scrappedText = 50 := hy
  have hstep0 : halveLongest [⟨x⟩, ⟨y⟩] = some [⟨strTake x 50000⟩, ⟨y⟩] := by
    rw [halveLongest_pair ⟨x⟩ ⟨y⟩ (by omega) (by omega)]
    rw [show strLen (OnlineItem.mk x).scrappedText / 2 = 50000 by omega]
  have hlen1 : strLen (OnlineItem.mk (strTake x 50000)).scrappedText = 50000 := by
    show strLen (strTake x 50000) = 50000
    rw [strLen_strTake]
    omega
  have hstep1 : halveLongest [⟨strTake x 50000⟩, ⟨y⟩]
      = some [⟨strTake x 25000⟩, ⟨y⟩] := by
    rw [halveLongest_pair ⟨strTake x 50000⟩ ⟨y⟩ (by omega) (by omega)]
    rw [show strLen (OnlineItem.mk (strTake x 50000)).scrappedText / 2 = 25000 by omega]
    rw [show strTake (OnlineItem.mk (strTake x 50000)).scrappedText 25000
        = strTake x 25000 by
      show strTake (strTake x 50000) 25000 = strTake x 25000
      rw [strTake_strTake]
      norm_num]
  have hmain : processData llm (some [⟨x⟩, ⟨y⟩])
      = Except.ok (resp, refs, some [⟨strTake x 25000⟩, ⟨y⟩], 2) := by
    calc processData llm (some [⟨x⟩, ⟨y⟩])
        = processDataLoop llm 0 5 (some [⟨x⟩, ⟨y⟩]) := rfl
      _ = processDataLoop llm 1 4 (some [⟨strTake x 50000⟩, ⟨y⟩]) :=
        processDataLoop_halve llm 0 4 _ _ e0 (h0 _) he0 rfl hstep0
      _ = processDataLoop llm 2 3 (some [⟨strTake x 25000⟩, ⟨y⟩]) :=
        processDataLoop_halve llm 1 3 _ _ e1 (h1 _) he1 rfl hstep1
      _ = Except.ok (resp, refs, some [⟨strTake x 25000⟩, ⟨y⟩], 2) :=
        processDataLoop_ok llm 2 2 _ resp refs (h2 _)
  refine ⟨hmain, ?_, ?_⟩
  · intro dag nodeId name od
    rw [hmain]
    simp [queueNodeFinish, getStatus, getResult, storeResult, getKey_setKey_self]
  · intro llmBad hbad
    obtain ⟨msg, hmsg⟩ := processDataLoop_never_ok llmBad hbad 5 0 (some [⟨x⟩, ⟨y⟩])
    refine ⟨msg, hmsg, ?_⟩
    intro dag nodeId name od
    rw [show processData llmBad (some [⟨x⟩, ⟨y⟩]) = Except.error msg from hmsg]
    simp [queueNodeFinish, getStatus, getResult, markFailed, getKey_setKey_self]

def xBig : String := ⟨List.replicate 100000 ('X')⟩

def ySmall : String := ⟨List.replicate 50 ('Y')⟩

def c6LlmStub : Nat → Option (List OnlineItem) → LLMOutcome :=
  fun attempt _ =>
    if attempt = 0 then LLMOutcome.err ("Token indices sequence length is longer than 4096")
    else if attempt = 1 then LLMOutcome.err ("the input exceeds maximum context length")
    else LLMOutcome.ok ("final response") ("")

theorem c6_witness :
    (strLen xBig = 100000) ∧ (strLen ySmall = 50) ∧
    processData c6LlmStub (some [⟨xBig⟩, ⟨ySmall⟩])
      = Except.ok ("final response", "", some [⟨strTake xBig 25000⟩, ⟨ySmall⟩], 2) := by
  have hx : strLen xBig = 100000 := by
    show (List.replicate 100000 ('X')).length = 100000
    exact List.length_replicate _ _
  have hy : strLen ySmall = 50 := by
    show (List.replicate 50 ('Y')).length = 50
    exact List.length_replicate _ _
  refine ⟨hx, hy, ?_⟩
  exact (c6_length_retry_halves_longest c6LlmStub xBig ySmall ("final response") ("")
    ("Token indices sequence length is longer than 4096")
    ("the input exceeds maximum context length")
    hx hy (fun _ => rfl) (by decide) (fun _ => rfl) (by decide) (fun _ => rfl)).1

/-! ## SingleGPUSummarizerService (src/Backend/Web_Search/src/SummarizationTask.py)

The service's own docstring: "This minimal fix uses a regular
multiprocessing.Queue rather than a PriorityQueue.  Requests are handled in
FIFO order (not by priority)."  The request queue is a plain FIFO list; the
worker loop takes the head, fails it immediately if its deadline has
elapsed at dequeue time, and otherwise runs the model (truncation and
paragraph reflow folded into the abstract `model` call, which never alters
the request id or the service order). -/

structure SummReq : Type where
  priority : Int
  requestId : String
  text : String
  deadline : Option Nat
deriving DecidableEq

structure SummResp : Type where
  requestId : String
  summaryText : String
  error : String
deriving DecidableEq

/-- `request_queue.get()` on a plain `multiprocessing.Queue`: the head. -/
def serviceDequeue : List SummReq → Option (SummReq × List SummReq)
  | [] => none
  | r :: rs => some (r, rs)

def serviceLoop (model : String → Except String String) (elapsed : SummReq → Bool) :
    List SummReq → List SummResp
  | [] => []
  | r :: rs =>
    (if elapsed r then SummResp.mk r.requestId ("") ("Deadline expired")
     else
       match model r.text with
       | Except.ok summary => SummResp.mk r.requestId summary ("")
       | Except.error e => SummResp.mk r.requestId ("") e) ::
    serviceLoop model elapsed rs

/-- **C7 counterexample.**  Two requests waiting: request "A" with priority
value 10 submitted first, request "B" with the lower priority value 1
submitted second.  The worker dequeues "A", not "B": the claim "among the
requests waiting, one with the lowest priority value is served first" fails
on the code, which its own docstring says is FIFO, not priority-ordered. -/
theorem c7_counterexample_priority_ignored :
    (serviceDequeue [⟨10, "A", "ta", none⟩, ⟨1, "B", "tb", none⟩]).map
        (fun p => p.1.requestId) = some ("A") ∧
    ((serviceLoop (fun t => Except.ok t) (fun _ => false)
        [⟨10, "A", "ta", none⟩, ⟨1, "B", "tb", none⟩]).map SummResp.requestId
      = ["A", "B"]) ∧
    ((1 : Int) < 10) := by
  refine ⟨rfl, rfl, by decide⟩

/-- **C7 (amended).**  The service serves queued requests strictly FIFO by
submission order: the sequence of response ids equals the sequence of
submitted request ids, whatever the requests' priority values (and whatever
the model or the deadline clock does). -/
theorem c7_amended_fifo_by_submission :
    ∀ (model : String → Except String String) (elapsed : SummReq → Bool)
      (queue : List SummReq),
      (serviceLoop model elapsed queue).map SummResp.requestId
        = queue.map SummReq.requestId := by
  intro model elapsed queue
  induction queue with
  | nil => rfl
  | cons r rs ih =>
    by_cases he : elapsed r
    · simp [serviceLoop, he, ih]
    · cases hm : model r.text with
      | ok s => simp [serviceLoop, he, hm, ih]
      | error e => simp [serviceLoop, he, hm, ih]

/-! ## QuerySynthesizer.generate_search_prompts
(src/Backend/Web_Search/src/QuerySynthesizer.py)

`_call_llm` returns the (fence-stripped) response text or `None`; the JSON
decode plus `data.get("search_prompts", [])` is the abstract
`parseSearchPrompts` (returning `none` exactly on `json.JSONDecodeError`).
A falsy raw response (None or empty) yields three "(Query i)" variations; a
decode failure yields three "(Fallback Query i)" variations. -/

def pyCapitalize (s : String) : String :=
  match s.data with
  | [] => ⟨[]⟩
  | c :: cs => ⟨Char.toUpper c :: cs.map Char.toLower⟩

def generateSearchPrompts (llmRaw : Option String)
    (parseSearchPrompts : String → Option (List String)) (incoming : String) :
    List String :=
  match llmRaw with
  | none =>
    [incoming ++ " (Query 1)", incoming ++ " (Query 2)", incoming ++ " (Query 3)"]
  | some raw =>
    if raw = "" then
      [incoming ++ " (Query 1)", incoming ++ " (Query 2)", incoming ++ " (Query 3)"]
    else
      match parseSearchPrompts raw with
      | some prompts => prompts.map pyCapitalize
      | none =>
        [incoming ++ " (Fallback Query 1)", incoming ++ " (Fallback Query 2)",
         incoming ++ " (Fallback Query 3)"]

/-- **C9 counterexample.**  On LLM failure (or unparseable response) the
fallback is three variations of the input prompt, not six as claimed. -/
theorem c9_counterexample_three_not_six :
    ((generateSearchPrompts none (fun _ => none) ("p")).length = 3) ∧
    (generateSearchPrompts none (fun _ => none) ("p")
      = ["p (Query 1)", "p (Query 2)", "p (Query 3)"]) ∧
    ((generateSearchPrompts (some ("not json")) (fun _ => none) ("p")).length = 3) ∧
    ¬ ((generateSearchPrompts none (fun _ => none) ("p")).length = 6) := by
  refine ⟨rfl, rfl, rfl, by decide⟩

/-- **C9 (amended).**  When the query-synthesis LLM call fails (returns
`None` or an empty string) the aggregator falls back to three "(Query i)"
variations of the input prompt; when the response cannot be parsed as JSON
it falls back to three "(Fallback Query i)" variations. -/
theorem c9_amended_fallback_is_three_variations :
    ∀ (parseSearchPrompts : String → Option (List String)) (incoming raw : String),
      (generateSearchPrompts none parseSearchPrompts incoming
        = [incoming ++ " (Query 1)", incoming ++ " (Query 2)",
           incoming ++ " (Query 3)"]) ∧
      (generateSearchPrompts (some ("")) parseSearchPrompts incoming
        = [incoming ++ " (Query 1)", incoming ++ " (Query 2)",
           incoming ++ " (Query 3)"]) ∧
      (raw ≠ "" → parseSearchPrompts raw = none →
        generateSearchPrompts (some raw) parseSearchPrompts incoming
          = [incoming ++ " (Fallback Query 1)", incoming ++ " (Fallback Query 2)",
             incoming ++ " (Fallback Query 3)"]) := by
  intro parseSearchPrompts incoming raw
  refine ⟨rfl, rfl, ?_⟩
  intro hraw hparse
  simp [generateSearchPrompts, hraw, hparse]

theorem c9_witness :
    (("zzz" : String) ≠ "") ∧
    generateSearchPrompts (some ("zzz")) (fun _ => none) ("p")
      = ["p (Fallback Query 1)", "p (Fallback Query 2)", "p (Fallback Query 3)"] :=
  ⟨by decide,
    (c9_amended_fallback_is_three_variations (fun _ => none) ("p") ("zzz")).2.2
      (by decide) rfl⟩

/-! ## SearchIntegrator (src/Backend/Web_Search/src/SearchIntegrator.py)

`get_web_urls_from_prompts` aggregates per-prompt search results into one
list, first URL occurrence winning (arrival order modelled as list order —
the claim's properties do not depend on the schedule).
`get_aggregated_response` scrapes each resource in a worker
(`process_resource_subprocess_worker`: fails on a missing url, a scrape
error/timeout, or empty/whitespace-only text), summarizes the scraped text
(chunked for bodies over 500 words, async otherwise), and finally
overwrites each kept resource's `scrapped_text` with its summary.  The
`as_completed` global timeout, which silently drops a suffix of the
scrape results, is the `cap` parameter. -/

structure Resource : Type where
  url : String
  displayUrl : String
  title : String
  snippet : String
  scrappedText : String
  extension : String
deriving DecidableEq

def dedupByUrl : List Resource → List String → List Resource
  | [], _ => []
  | r :: rs, seen =>
    if r.url ∈ seen then dedupByUrl rs seen
    else r :: dedupByUrl rs (r.url :: seen)

def getWebUrlsFromPrompts (searchResults : List (List Resource)) : List Resource :=
  dedupByUrl (List.flatten searchResults) []

/-- Python's `not s or not s.strip()`: the string is empty or whitespace. -/
def isBlank (s : String) : Bool :=
  s.data.all Char.isWhitespace

/-- Python's `len(s.split())`: number of maximal non-whitespace runs. -/
def wordCountAux : List Char → Bool → Nat
  | [], _ => 0
  | c :: cs, inWord =>
    if Char.isWhitespace c then wordCountAux cs false
    else (if inWord then 0 else 1) + wordCountAux cs true

def countWords (s : String) : Nat :=
  wordCountAux s.data false

def processResourceWorker (scrape : String → Option String) (extOf : String → String)
    (res : Resource) : Option Resource :=
  if res.url = "" then none
  else
    let ext0 := extOf res.url
    let ext1 := if ext0 = "docx" then "pdf" else ext0
    let ext := if ext1 = "pdf" then "pdf" else "html"
    match scrape res.url with
    | none => none
    | some text =>
      if isBlank text then none
      else some { res with scrappedText := text, extension := ext }

def aggregatePair (scrape : String → Option String) (extOf : String → String)
    (chunkSummarize asyncSummarize : String → String) (r : Resource) :
    Option (Resource × String) :=
  match processResourceWorker scrape extOf r with
  | none => none
  | some res =>
    if res.scrappedText = "" then none
    else if 500 < countWords res.scrappedText then
      some (res, chunkSummarize res.scrappedText)
    else
      some (res, asyncSummarize res.scrappedText)

def getAggregatedResponse (scrape : String → Option String) (extOf : String → String)
    (chunkSummarize asyncSummarize : String → String) (cap : Nat)
    (searchResults : List (List Resource)) : List Resource :=
  let resources := getWebUrlsFromPrompts searchResults
  let pairs := (resources.take cap).filterMap
    (aggregatePair scrape extOf chunkSummarize asyncSummarize)
  pairs.map (fun p => { p.1 with scrappedText := p.2 })

/-- **C5 counterexample.**  A summarizer that returns the empty string makes
the aggregator emit a resource whose final `scrapped_text` is empty: the
final loop unconditionally overwrites `scrapped_text` with the summary and
nothing drops an empty-summary resource.  This refutes both "no resource
whose scrapped_text is empty" and "a resource whose final summarized text
is empty is dropped". -/
theorem c5_counterexample_empty_summary_emitted :
    getAggregatedResponse (fun _ => some ("hello world")) (fun _ => "html")
        (fun _ => "") (fun _ => "") 10 [[⟨"u", "u", "t", "s", "", ""⟩]]
      = [⟨"u", "u", "t", "s", "", "html"⟩] ∧
    ((⟨"u", "u", "t", "s", "", "html"⟩ : Resource).scrappedText = "") := by
  exact ⟨by decide, rfl⟩

theorem dedupByUrl_nodup (rs : List Resource) :
    ∀ seen, ((dedupByUrl rs seen).map Resource.url).Nodup ∧
      ∀ u ∈ (dedupByUrl rs seen).map Resource.url, u ∉ seen := by
  induction rs with
  | nil => intro seen; exact ⟨List.nodup_nil, by simp [dedupByUrl]⟩
  | cons r rs ih =>
    intro seen
    by_cases h : r.url ∈ seen
    · simpa [dedupByUrl, h] using ih seen
    · obtain ⟨hnd, hout⟩ := ih (r.url :: seen)
      refine ⟨?_, ?_⟩
      · simp only [dedupByUrl, h, if_neg, not_false_iff, List.map_cons]
        refine List.nodup_cons.mpr ⟨?_, hnd⟩
        intro hmem
        exact hout r.url hmem (List.mem_cons_self _ _)
      · intro u hu
        simp only [dedupByUrl, h, if_neg, not_false_iff, List.map_cons,
          List.mem_cons] at hu
        rcases hu with rfl | hu
        · exact h
        · exact fun hus => hout u hu (List.mem_cons_of_mem _ hus)

theorem filterMap_pair_url_sublist (f : Resource → Option (Resource × String))
    (hf : ∀ r p, f r = some p → p.1.url = r.url) :
    ∀ rs : List Resource,
      ((rs.filterMap f).map (fun p => p.1.url)).Sublist (rs.map Resource.url)
  | [] => by simp
  | r :: rs => by
    cases hr : f r with
    | none =>
      simp only [List.filterMap_cons, hr, List.map_cons]
      exact (filterMap_pair_url_sublist f hf rs).cons _
    | some p =>
      simp only [List.filterMap_cons, hr, List.map_cons]
      rw [hf r p hr]
      exact (filterMap_pair_url_sublist f hf rs).cons₂ _

theorem processResourceWorker_url (scrape : String → Option String)
    (extOf : String → String) (r res : Resource)
    (h : processResourceWorker scrape extOf r = some res) : res.url = r.url := by
  unfold processResourceWorker at h
  by_cases hu : r.url = ""
  · simp [hu] at h
  · simp only [hu, if_neg, not_false_iff] at h
    cases hs : scrape r.url with
    | none => rw [hs] at h; exact absurd h (by simp)
    | some text =>
      rw [hs] at h
      by_cases ht : isBlank text
      · simp [ht] at h
      · simp only [ht, Bool.false_eq_true, if_neg, not_false_iff,
          Option.some.injEq] at h
        rw [← h]

theorem aggregatePair_url (scrape : String → Option String) (extOf : String → String)
    (chunkSummarize asyncSummarize : String → String) (r : Resource)
    (p : Resource × String)
    (h : aggregatePair scrape extOf chunkSummarize asyncSummarize r = some p) :
    p.1.url = r.url := by
  unfold aggregatePair at h
  cases hw : processResourceWorker scrape extOf r with
  | none => rw [hw] at h; exact absurd h (by simp)
  | some res =>
    rw [hw] at h
    have hurl := processResourceWorker_url scrape extOf r res hw
    by_cases he : res.scrappedText = ""
    · simp [he] at h
    · simp only [he, if_neg, not_false_iff] at h
      by_cases hl : 500 < countWords res.scrappedText
      · simp only [hl, if_pos, Option.some.injEq] at h
        rw [← h]
        exact hurl
      · simp only [hl, if_neg, not_false_iff, Option.some.injEq] at h
        rw [← h]
        exact hurl

theorem aggregatePair_scrape (scrape : String → Option String) (extOf : String → String)
    (chunkSummarize asyncSummarize : String → String) (r : Resource)
    (p : Resource × String)
    (h : aggregatePair scrape extOf chunkSummarize asyncSummarize r = some p) :
    ∃ raw, isBlank raw = false ∧ scrape r.url = some raw ∧
      (p.2 = chunkSummarize raw ∨ p.2 = asyncSummarize raw) := by
  unfold aggregatePair at h
  cases hw : processResourceWorker scrape extOf r with
  | none => rw [hw] at h; exact absurd h (by simp)
  | some res =>
    rw [hw] at h
    unfold processResourceWorker at hw
    by_cases hu : r.url = ""
    · simp [hu] at hw
    · simp only [hu, if_neg, not_false_iff] at hw
      cases hs : scrape r.url with
      | none => rw [hs] at hw; exact absurd hw (by simp)
      | some text =>
        rw [hs] at hw
        by_cases ht : isBlank text
        · simp [ht] at hw
        · simp only [ht, Bool.false_eq_true, if_neg, not_false_iff,
            Option.some.injEq] at hw
          refine ⟨text, by simpa using ht, rfl, ?_⟩
          have hres : res.scrappedText = text := by rw [← hw]
          by_cases he : res.scrappedText = ""
          · simp [he] at h
          · simp only [he, if_neg, not_false_iff] at h
            by_cases hl : 500 < countWords res.scrappedText
            · simp only [hl, if_pos, Option.some.injEq] at h
              exact Or.inl (by rw [← h, ← hres])
            · simp only [hl, if_neg, not_false_iff, Option.some.injEq] at h
              exact Or.inr (by rw [← h, ← hres])

/-- **C5 (amended).**  Every list returned by the aggregator has pairwise
distinct URLs (first search occurrence wins), and every emitted resource
comes from a successful scrape whose raw text was neither empty nor
whitespace-only; but the emitted `scrapped_text` is the summarizer's output
for that raw text, which is emitted even when empty — no empty-summary or
paywall-marker filtering of the final text exists in this path. -/
theorem c5_amended_unique_urls_nonempty_scrape
    (scrape : String → Option String) (extOf : String → String)
    (chunkSummarize asyncSummarize : String → String) (cap : Nat)
    (searchResults : List (List Resource)) :
    (((getAggregatedResponse scrape extOf chunkSummarize asyncSummarize cap
        searchResults).map Resource.url).Nodup) ∧
    (∀ r ∈ getAggregatedResponse scrape extOf chunkSummarize asyncSummarize cap
        searchResults,
      ∃ raw, isBlank raw = false ∧
        (r.scrappedText = chunkSummarize raw ∨ r.scrappedText = asyncSummarize raw)) := by
  constructor
  · have hmm : (getAggregatedResponse scrape extOf chunkSummarize asyncSummarize cap
        searchResults).map Resource.url
      = (((getWebUrlsFromPrompts searchResults).take cap).filterMap
          (aggregatePair scrape extOf chunkSummarize asyncSummarize)).map
          (fun p => p.1.url) := by
      unfold getAggregatedResponse
      rw [List.map_map]
      rfl
    rw [hmm]
    have hsub1 := filterMap_pair_url_sublist
      (aggregatePair scrape extOf chunkSummarize asyncSummarize)
      (aggregatePair_url scrape extOf chunkSummarize asyncSummarize)
      ((getWebUrlsFromPrompts searchResults).take cap)
    have hsub2 : (((getWebUrlsFromPrompts searchResults).take cap).map
        Resource.url).Sublist ((getWebUrlsFromPrompts searchResults).map Resource.url) :=
      (List.take_sublist cap _).map _
    exact ((dedupByUrl_nodup (List.flatten searchResults) []).1).sublist
      (hsub1.trans hsub2)
  · intro r hr
    unfold getAggregatedResponse at hr
    rw [List.mem_map] at hr
    obtain ⟨p, hp, hpr⟩ := hr
    rw [List.mem_filterMap] at hp
    obtain ⟨r0, _, hr0⟩ := hp
    obtain ⟨raw, hraw, _, hsum⟩ :=
      aggregatePair_scrape scrape extOf chunkSummarize asyncSummarize r0 p hr0
    refine ⟨raw, hraw, ?_⟩
    have hpt : r.scrappedText = p.2 := by rw [← hpr]
    rw [hpt]
    exact hsum

theorem c5_witness :
    ((getAggregatedResponse (fun _ => some ("hello world")) (fun _ => "html")
        (fun _ => "S") (fun _ => "S") 10 [[⟨"u", "u", "t", "s", "", ""⟩]]).map
        Resource.url).Nodup ∧
    ((⟨"u", "u", "t", "s", "S", "html"⟩ : Resource) ∈
      getAggregatedResponse (fun _ => some ("hello world")) (fun _ => "html")
        (fun _ => "S") (fun _ => "S") 10 [[⟨"u", "u", "t", "s", "", ""⟩]]) ∧
    (∃ raw, isBlank raw = false ∧
      ((Resource.mk ("u") ("u") ("t") ("s") ("S") ("html")).scrappedText
          = (fun (_ : String) => "S") raw ∨
        (Resource.mk ("u") ("u") ("t") ("s") ("S") ("html")).scrappedText
          = (fun (_ : String) => "S") raw)) := by
  have hmem : (⟨"u", "u", "t", "s", "S", "html"⟩ : Resource) ∈
      getAggregatedResponse (fun _ => some ("hello world")) (fun _ => "html")
        (fun _ => "S") (fun _ => "S") 10 [[⟨"u", "u", "t", "s", "", ""⟩]] := by
    decide
  refine ⟨(c5_amended_unique_urls_nonempty_scrape (fun _ => some ("hello world"))
      (fun _ => "html") (fun _ => "S") (fun _ => "S") 10
      [[⟨"u", "u", "t", "s", "", ""⟩]]).1,
    hmem,
    (c5_amended_unique_urls_nonempty_scrape (fun _ => some ("hello world"))
      (fun _ => "html") (fun _ => "S") (fun _ => "S") 10
      [[⟨"u", "u", "t", "s", "", ""⟩]]).2 _ hmem⟩

end Stratvithor
